import Mathlib

/-!
Verification of the `ndarray-quaternion` crate (src/lib.rs).

The crate stores a quaternion as a length-4 `f32` array `[w, x, y, z]`
(the length is enforced by an assertion in `Quaternion::new`).  We model
the four components as a Lean structure over `ℝ` (idealizing `f32`
arithmetic as real arithmetic), length-checked constructors as
`Option`-returning functions (a `none` result models a fatal assertion
failure), and `ndarray`'s matrix–vector `dot` as `Matrix.mulVec`.
-/

namespace NQ

/-- The quaternion data model: the four components `[w, x, y, z]` of the
length-4 array `q` held by `Quaternion` (the length-4 invariant from
`Quaternion::new` is captured by the four fields). -/
@[ext]
structure Quaternion where
  w : ℝ
  x : ℝ
  y : ℝ
  z : ℝ

namespace Quaternion

/-- The underlying length-4 component array `self.q`, as a `Fin 4`-vector. -/
def components (q : Quaternion) : Fin 4 → ℝ :=
  ![q.w, q.x, q.y, q.z]

/-- `Quaternion::new` applied to a vector that is statically length 4
(the `assert_eq!(q.len(), 4)` is discharged by the type). -/
def new (v : Fin 4 → ℝ) : Quaternion :=
  ⟨v 0, v 1, v 2, v 3⟩

/-- `Quaternion::from_wxyz`. -/
def from_wxyz (w x y z : ℝ) : Quaternion :=
  ⟨w, x, y, z⟩

/-- `Quaternion::from_vector`: `assert_eq!(v.len(), 3)` then
`Self::new(array![0.0, v[0], v[1], v[2]])`.  A failed assertion is
modelled by `none`. -/
def from_vector (v : List ℝ) : Option Quaternion :=
  if v.length = 3 then some ⟨0, v.getD 0 0, v.getD 1 0, v.getD 2 0⟩ else none

/-- `Quaternion::scalar`. -/
def scalar (q : Quaternion) : ℝ :=
  q.w

/-- `Quaternion::vector`: the slice `q[1..4]` as an owned 3-vector. -/
def vector (q : Quaternion) : List ℝ :=
  [q.x, q.y, q.z]

/-- `Quaternion::to_vector`: `array![q[1], q[2], q[3]]`. -/
def to_vector (q : Quaternion) : List ℝ :=
  [q.x, q.y, q.z]

/-- `Quaternion::sum_of_squares`: `self.q.dot(&self.q)`. -/
def sum_of_squares (q : Quaternion) : ℝ :=
  Matrix.dotProduct q.components q.components

/-- `f32::EPSILON`, the machine epsilon of 32-bit floats: `2⁻²³`. -/
noncomputable def EPSILON : ℝ :=
  1 / 2 ^ 23

/-- `Quaternion::is_unit`: `(1.0 - self.sum_of_squares()).abs() < f32::EPSILON`. -/
def is_unit (q : Quaternion) : Prop :=
  |1 - q.sum_of_squares| < EPSILON

/-- `Quaternion::norm`: `self.sum_of_squares().sqrt()`. -/
noncomputable def norm (q : Quaternion) : ℝ :=
  Real.sqrt q.sum_of_squares

/-- `Quaternion::magnitude`: alias for `norm`. -/
noncomputable def magnitude (q : Quaternion) : ℝ :=
  q.norm

open Classical in
/-- `Quaternion::normalize` (in-place in Rust; modelled as the function
sending the receiver's old state to its new state): if `!self.is_unit()`
and `self.norm() > 0.0`, divide every component by the norm, otherwise
leave the components unchanged. -/
noncomputable def normalize (q : Quaternion) : Quaternion :=
  if q.is_unit then q
  else if q.norm > 0 then ⟨q.w / q.norm, q.x / q.norm, q.y / q.norm, q.z / q.norm⟩
  else q

/-- `Quaternion::normalized`: clone, then `normalize` the clone. -/
noncomputable def normalized (q : Quaternion) : Quaternion :=
  q.normalize

/-- `Quaternion::unit`: alias for `normalized`. -/
noncomputable def unit (q : Quaternion) : Quaternion :=
  q.normalized

/-- `Quaternion::conjugate`: `[w, -x, -y, -z]`. -/
def conjugate (q : Quaternion) : Quaternion :=
  ⟨q.w, -q.x, -q.y, -q.z⟩

/-- `Quaternion::inverse`: `assert!(s > 0.0)` with `s = sum_of_squares()`,
then the conjugate with every component divided by `s`.  The fatal
assertion is modelled by `none`. -/
noncomputable def inverse (q : Quaternion) : Option Quaternion :=
  if 0 < q.sum_of_squares then
    some ⟨q.conjugate.w / q.sum_of_squares, q.conjugate.x / q.sum_of_squares,
          q.conjugate.y / q.sum_of_squares, q.conjugate.z / q.sum_of_squares⟩
  else none

/-- `Quaternion::q_matrix`: the 4×4 left-multiplication matrix built from
`self.q`, row by row as in the source. -/
def q_matrix (q : Quaternion) : Matrix (Fin 4) (Fin 4) ℝ :=
  !![q.w, -q.x, -q.y, -q.z;
     q.x, q.w, -q.z, q.y;
     q.y, q.z, q.w, -q.x;
     q.z, -q.y, q.x, q.w]

/-- `impl ops::Mul for Quaternion` (by value):
`Quaternion::new(self.q_matrix().dot(&rhs.q))`. -/
def mul (a b : Quaternion) : Quaternion :=
  new (a.q_matrix.mulVec b.components)

/-- `impl ops::Mul for &Quaternion` (by reference):
`Quaternion::new(self.q_matrix().dot(&rhs.q))`. -/
def mulRef (a b : Quaternion) : Quaternion :=
  new (a.q_matrix.mulVec b.components)

/-- `Quaternion::rotate_vector`: embed `v` by `from_vector` (asserting
length 3), form `self * &qv * self.conjugate()` (left associated, so
`(self * qv) * conjugate`), and return its vector part. -/
def rotate_vector (q : Quaternion) (v : List ℝ) : Option (List ℝ) :=
  (from_vector v).map fun qv => ((q.mulRef qv).mul q.conjugate).to_vector

/-- `f32::atan2(self, other)` modelled as the argument of the complex
number `other + self·i`, which is the mathematical `atan2` function. -/
noncomputable def atan2 (y x : ℝ) : ℝ :=
  Complex.arg ⟨x, y⟩

/-- `Quaternion::taitbryan`, exactly as written in the source:
`tb1 = 2.0 * (q[0]*q[2] - q[1]*q[3]).asin()` (note: the `asin` is applied
before the multiplication by `2.0`),
`tb0 = (2.0*(q[2]*q[3] + q[0]*q[1])).atan2(1.0 - 2.0*(q[1]² + q[2]²))`,
`tb2 = (2.0*(q[1]*q[2] + q[0]*q[3])).atan2(1.0 - 2.0*(q[2]² + q[3]²))`,
returning `array![tb0, tb1, tb2]`. -/
noncomputable def taitbryan (q : Quaternion) : List ℝ :=
  let tb1 := 2 * Real.arcsin (q.w * q.y - q.x * q.z)
  let tb0 := atan2 (2 * (q.y * q.z + q.w * q.x)) (1 - 2 * (q.x * q.x + q.y * q.y))
  let tb2 := atan2 (2 * (q.x * q.y + q.w * q.z)) (1 - 2 * (q.y * q.y + q.z * q.z))
  [tb0, tb1, tb2]

end Quaternion

/-- Closed form of the product: evaluating `q_matrix ·ᵥ components`. -/
theorem mul_closed (a b : Quaternion) :
    a.mul b = ⟨a.w * b.w - a.x * b.x - a.y * b.y - a.z * b.z,
               a.x * b.w + a.w * b.x - a.z * b.y + a.y * b.z,
               a.y * b.w + a.z * b.x + a.w * b.y - a.x * b.z,
               a.z * b.w - a.y * b.x + a.x * b.y + a.w * b.z⟩ := by
  simp [Quaternion.mul, Quaternion.new, Quaternion.q_matrix, Quaternion.components,
    Matrix.mulVec, Matrix.dotProduct, Fin.sum_univ_four]
  refine ⟨by ring, by ring, by ring, by ring⟩

/-- `sum_of_squares` as the explicit sum of squared components. -/
theorem sum_of_squares_closed (q : Quaternion) :
    q.sum_of_squares = q.w ^ 2 + q.x ^ 2 + q.y ^ 2 + q.z ^ 2 := by
  simp [Quaternion.sum_of_squares, Quaternion.components, Matrix.dotProduct, Fin.sum_univ_four]
  ring

/-- The sum of squares is nonnegative. -/
theorem sum_of_squares_nonneg (q : Quaternion) : 0 ≤ q.sum_of_squares := by
  rw [sum_of_squares_closed]
  positivity

/-- The left-multiplication matrix as the spec lists it, row by row:
`[w,-x,-y,-z]`, `[x,w,-z,y]`, `[y,z,w,-x]`, `[z,-y,x,w]`. -/
def q_matrix_spec (q : Quaternion) : Matrix (Fin 4) (Fin 4) ℝ :=
  !![q.w, -q.x, -q.y, -q.z;
     q.x, q.w, -q.z, q.y;
     q.y, q.z, q.w, -q.x;
     q.z, -q.y, q.x, q.w]

/-- The textbook Hamilton product (`hamilton_product(left, right)` in the
spec's wording), written as the 16-term scalar expansion. -/
def hamilton_product_spec (a b : Quaternion) : Quaternion :=
  ⟨a.w * b.w - a.x * b.x - a.y * b.y - a.z * b.z,
   a.w * b.x + a.x * b.w + a.y * b.z - a.z * b.y,
   a.w * b.y - a.x * b.z + a.y * b.w + a.z * b.x,
   a.w * b.z + a.x * b.y - a.y * b.x + a.z * b.w⟩

/-- C2: for all quaternions `left` and `right`, the product `left * right`
is the matrix–vector product `Q_L · right.components` for the 4×4 matrix
`Q_L` with rows `[w,-x,-y,-z]`, `[x,w,-z,y]`, `[y,z,w,-x]`, `[z,-y,x,w]`
(taken literally from the spec), the resulting 4-vector being the result
quaternion's components; and this product is the Hamilton product. -/
theorem mul_is_q_matrix_mulVec (a b : Quaternion) :
    (a.mul b).components = (q_matrix_spec a).mulVec b.components ∧
    a.mul b = hamilton_product_spec a b := by
  constructor
  · funext i
    fin_cases i <;>
      simp [Quaternion.mul, Quaternion.new, Quaternion.components, Quaternion.q_matrix,
        q_matrix_spec, Matrix.mulVec, Matrix.dotProduct, Fin.sum_univ_four]
  · rw [mul_closed]
    unfold hamilton_product_spec
    ext <;> dsimp <;> ring

/-- C7: the Hamilton product is associative: `(a*b)*c = a*(b*c)`
(exactly, in the real-valued model of the `f32` components). -/
theorem mul_assoc_exact (a b c : Quaternion) :
    (a.mul b).mul c = a.mul (b.mul c) := by
  simp only [mul_closed]
  ext <;> dsimp <;> ring

/-- C9: the by-value multiplication (`impl ops::Mul for Quaternion`) and
the by-reference multiplication (`impl ops::Mul for &Quaternion`) return
identical components on every pair of operands. -/
theorem mul_by_value_eq_by_ref (a b : Quaternion) :
    a.mul b = a.mulRef b :=
  rfl

/-- C6: `is_unit` holds exactly when `|1 - (w² + x² + y² + z²)| < 2⁻²³`,
`2⁻²³` being the machine epsilon of 32-bit floats. -/
theorem is_unit_iff_eps (q : Quaternion) :
    q.is_unit ↔ |1 - (q.w ^ 2 + q.x ^ 2 + q.y ^ 2 + q.z ^ 2)| < 1 / 2 ^ 23 := by
  rw [Quaternion.is_unit, sum_of_squares_closed, Quaternion.EPSILON]

/-- C10: conjugation preserves the sum of squares exactly, hence also
`norm`, `magnitude` and the `is_unit` predicate. -/
theorem conjugate_preserves_sum_of_squares (q : Quaternion) :
    q.conjugate.sum_of_squares = q.sum_of_squares ∧
    q.conjugate.norm = q.norm ∧
    q.conjugate.magnitude = q.magnitude ∧
    (q.conjugate.is_unit ↔ q.is_unit) := by
  have h : q.conjugate.sum_of_squares = q.sum_of_squares := by
    simp only [sum_of_squares_closed, Quaternion.conjugate]
    ring
  exact ⟨h, by rw [Quaternion.norm, Quaternion.norm, h],
    by rw [Quaternion.magnitude, Quaternion.magnitude, Quaternion.norm, Quaternion.norm, h],
    by rw [Quaternion.is_unit, Quaternion.is_unit, h]⟩

/-- C5: normalizing the zero quaternion `[0,0,0,0]` leaves it unchanged
(its norm is `0`, so the division branch is never taken). -/
theorem normalize_zero_quaternion :
    Quaternion.normalize ⟨0, 0, 0, 0⟩ = ⟨0, 0, 0, 0⟩ := by
  have hss : Quaternion.sum_of_squares ⟨0, 0, 0, 0⟩ = 0 := by
    rw [sum_of_squares_closed]
    norm_num
  have h1 : ¬ Quaternion.is_unit ⟨0, 0, 0, 0⟩ := by
    rw [Quaternion.is_unit, hss, Quaternion.EPSILON]
    norm_num
  have h2 : ¬ Quaternion.norm ⟨0, 0, 0, 0⟩ > 0 := by
    rw [Quaternion.norm, hss, Real.sqrt_zero]
    exact lt_irrefl 0
  rw [Quaternion.normalize, if_neg h1, if_neg h2]

/-- C8: `normalize` is idempotent: normalizing twice yields exactly the
same components as normalizing once. -/
theorem normalize_idempotent (q : Quaternion) :
    q.normalize.normalize = q.normalize := by
  by_cases h1 : q.is_unit
  · have hq : q.normalize = q := by rw [Quaternion.normalize, if_pos h1]
    rw [hq]
    exact hq
  by_cases h2 : q.norm > 0
  · have hq : q.normalize = ⟨q.w / q.norm, q.x / q.norm, q.y / q.norm, q.z / q.norm⟩ := by
      rw [Quaternion.normalize, if_neg h1, if_pos h2]
    have hsspos : 0 < q.sum_of_squares := by
      rw [Quaternion.norm] at h2
      exact Real.sqrt_pos.mp h2
    have hn2 : q.norm ^ 2 = q.sum_of_squares := by
      rw [Quaternion.norm]
      exact Real.sq_sqrt (le_of_lt hsspos)
    have hss1 :
        (Quaternion.mk (q.w / q.norm) (q.x / q.norm) (q.y / q.norm) (q.z / q.norm)).sum_of_squares
          = 1 := by
      rw [sum_of_squares_closed]
      dsimp only
      simp only [div_pow]
      rw [div_add_div_same, div_add_div_same, div_add_div_same, hn2, ← sum_of_squares_closed]
      exact div_self (ne_of_gt hsspos)
    have hiu :
        (Quaternion.mk (q.w / q.norm) (q.x / q.norm) (q.y / q.norm) (q.z / q.norm)).is_unit := by
      rw [Quaternion.is_unit, hss1, Quaternion.EPSILON]
      norm_num
    rw [hq, Quaternion.normalize, if_pos hiu]
  · have hq : q.normalize = q := by rw [Quaternion.normalize, if_neg h1, if_neg h2]
    rw [hq]
    exact hq

/-- C4: `inverse` hits its fatal assertion exactly when
`sum_of_squares > 0` fails (in particular on the zero quaternion), and
otherwise returns the conjugate with every component divided by the sum
of squares. -/
theorem inverse_assertion_and_value (q : Quaternion) :
    (q.inverse = none ↔ ¬ 0 < q.sum_of_squares) ∧
    (0 < q.sum_of_squares →
      q.inverse = some ⟨q.conjugate.w / q.sum_of_squares, q.conjugate.x / q.sum_of_squares,
                        q.conjugate.y / q.sum_of_squares, q.conjugate.z / q.sum_of_squares⟩) := by
  unfold Quaternion.inverse
  by_cases h : 0 < q.sum_of_squares <;> simp [h]

/-- Witness for C4: inverting `[2,0,0,0]` succeeds with `[1/2,0,0,0]`,
and inverting the zero quaternion fails the assertion. -/
theorem inverse_assertion_and_value_witness :
    Quaternion.inverse ⟨2, 0, 0, 0⟩ = some ⟨1 / 2, 0, 0, 0⟩ ∧
    Quaternion.inverse ⟨0, 0, 0, 0⟩ = none := by
  constructor
  · have h := (inverse_assertion_and_value ⟨2, 0, 0, 0⟩).2
      (by rw [sum_of_squares_closed]; norm_num)
    rw [h]
    norm_num [Quaternion.conjugate, sum_of_squares_closed]
  · exact (inverse_assertion_and_value ⟨0, 0, 0, 0⟩).1.mpr
      (by rw [sum_of_squares_closed]; norm_num)

/-- C3: on a 3-component vector `v`, `rotate_vector` returns the vector
part of `(q * qv) * conjugate(q)` with `qv` the pure quaternion
`[0, v0, v1, v2]`; on any other length it fails the fatal assertion. -/
theorem rotate_vector_rotates (q : Quaternion) (v : List ℝ) :
    (v.length = 3 →
      q.rotate_vector v =
        some (((q.mul ⟨0, v.getD 0 0, v.getD 1 0, v.getD 2 0⟩).mul q.conjugate).to_vector)) ∧
    (v.length ≠ 3 → q.rotate_vector v = none) := by
  unfold Quaternion.rotate_vector Quaternion.from_vector
  by_cases h : v.length = 3 <;> simp [h, Quaternion.mulRef, Quaternion.mul]

/-- Witness for C3: rotating `[2,3,4]` by the identity quaternion yields
`[2,3,4]`, and a 2-component vector fails the assertion. -/
theorem rotate_vector_rotates_witness :
    Quaternion.rotate_vector ⟨1, 0, 0, 0⟩ [2, 3, 4] = some [2, 3, 4] ∧
    Quaternion.rotate_vector ⟨1, 0, 0, 0⟩ [2, 3] = none := by
  constructor
  · have h := (rotate_vector_rotates ⟨1, 0, 0, 0⟩ [2, 3, 4]).1 (by norm_num)
    rw [h]
    norm_num [mul_closed, Quaternion.to_vector, Quaternion.conjugate,
      List.getD_cons_zero, List.getD_cons_succ]
  · exact (rotate_vector_rotates ⟨1, 0, 0, 0⟩ [2, 3]).2 (by norm_num)

/-- C1: on the quaternion `[1, 0, 1/2, 0]` the code returns the angle list
`[0, π/3, 0]`: its pitch is `2·asin(w·y − x·z) = 2·asin(1/2) = π/3`,
because the source multiplies by `2.0` after applying `asin`.  The claimed
formula `asin(2·(w·y − x·z)) = asin(1)` evaluates to `π/2` instead, and
`π/3 ≠ π/2`.  (Yaw and roll both match the claimed formulas and evaluate
to `atan2 0 (1/2) = 0` here.) -/
theorem taitbryan_pitch_formula_mismatch :
    Quaternion.taitbryan ⟨1, 0, 1 / 2, 0⟩ = [0, Real.pi / 3, 0] ∧
    Real.arcsin (2 * ((1 : ℝ) * (1 / 2) - 0 * 0)) = Real.pi / 2 ∧
    Real.pi / 3 ≠ Real.pi / 2 := by
  have hpi := Real.pi_pos
  have harc : Real.arcsin (1 / 2) = Real.pi / 6 := by
    rw [show (1 / 2 : ℝ) = Real.sin (Real.pi / 6) from (Real.sin_pi_div_six).symm]
    exact Real.arcsin_sin (by linarith) (by linarith)
  have hzero : Quaternion.atan2 0 (1 / 2) = 0 := by
    rw [Quaternion.atan2, show (⟨1 / 2, 0⟩ : ℂ) = ((1 / 2 : ℝ) : ℂ) from rfl]
    exact Complex.arg_ofReal_of_nonneg (by norm_num)
  refine ⟨?_, ?_, ?_⟩
  · rw [Quaternion.taitbryan]
    dsimp only
    norm_num [harc, hzero]
    linarith
  · rw [show (2 * ((1 : ℝ) * (1 / 2) - 0 * 0)) = 1 by norm_num, Real.arcsin_one]
  · intro h
    linarith

end NQ
